import Mathlib

/-!
Verification of the vespasian API-surface discovery core: the probe data
model (`pkg/probes`), the discovery orchestrator (`pkg/discovery`), the
endpoint deduplication pass (`DedupeEndpoints`), and the generic capability
registry (`pkg/registry`), shallowly embedded from the Go sources.

Modelling conventions:
* Go `nil` slices and `nil` errors are `Option.none`; a `*ProbeResult`
  return value is an `Option ProbeResult`.
* A probe's `Run` either returns a `(*ProbeResult, error)` pair
  (`RunOutcome.ret`) or panics (`RunOutcome.crash`).  The orchestrator's
  goroutine body contains no `recover`, so any panic inside a unit —
  including the nil-pointer dereference at `results[idx] = *result` —
  crashes the whole process; `Discover` therefore returns an
  `Option (List ProbeResult × Option GoError)`, with `none` standing for
  that crash and `some (rs, e)` for a normal return of `(rs, e)`.
* Each goroutine computes its slot's value purely from its own probe's
  `Run` result and writes only to its own pre-allocated slot, so the final
  array is independent of scheduling; the embedding is the resulting pure
  function.
* Go `sort.Slice` with `Priority() >` is a deterministic comparison sort
  with unspecified tie order; it is modelled by a stable insertion sort
  with respect to `Priority() ≥`, one of the orders the source may produce.
* `strings.ToLower` is modelled by mapping `Char.toLower` over the
  characters (they agree on the ASCII paths handled here).
-/

namespace Vespasian

/-- Go error values, modelled by their message strings; `none` is `nil`. -/
abbrev GoError := String

/-- ProbeCategory represents the category of probe (`pkg/probes`). -/
inductive ProbeCategory where
  | http
  | protocol
deriving DecidableEq, Repr

/-- Target represents a scan target. -/
structure Target where
  Host : String
  Port : Int
deriving DecidableEq, Repr

/-- ProbeOptions contains options for probe execution. -/
structure ProbeOptions where
  Timeout : Int
deriving DecidableEq, Repr

/-- APIEndpoint represents a discovered API endpoint. -/
structure APIEndpoint where
  Path : String
  Method : String
deriving DecidableEq, Repr

/-- ProbeResult contains the results of a probe execution.  `Endpoints`
is `none` for a Go `nil` slice and `some l` for a non-nil slice `l`. -/
structure ProbeResult where
  ProbeCategory : ProbeCategory
  Success : Bool
  Endpoints : Option (List APIEndpoint)
  Error : Option GoError
deriving DecidableEq, Repr

/-- The endpoint slice of a result as a list (`len`/range in Go treat a
nil slice as empty). -/
def ProbeResult.eps (r : ProbeResult) : List APIEndpoint :=
  r.Endpoints.getD []

/-- An opaque `context.Context`; the orchestrator only passes it through. -/
structure Context where
deriving DecidableEq, Repr

/-- The outcome of calling a probe's `Run`: either it returns a
`(*ProbeResult, error)` pair, or it panics (`crash`). -/
inductive RunOutcome where
  | ret (result : Option ProbeResult) (error : Option GoError)
  | crash
deriving DecidableEq, Repr

/-- Probe is the base interface for all probes (`pkg/probes`), modelled as
a record of its methods. -/
structure Probe where
  Name : String
  Category : ProbeCategory
  Priority : Int
  Accepts : Target → Bool
  Run : Context → Target → ProbeOptions → RunOutcome

/-- Orchestrator coordinates probe execution for API surface discovery. -/
structure Orchestrator where
  probes : List Probe

/-- NewOrchestrator creates a new discovery orchestrator with the given
probes. -/
def NewOrchestrator (probeList : List Probe) : Orchestrator :=
  { probes := probeList }

/-- The ordering used by `sortProbesByPriority`: higher priority first. -/
def probeGE (a b : Probe) : Prop := b.Priority ≤ a.Priority

instance : DecidableRel probeGE :=
  fun a b => inferInstanceAs (Decidable (b.Priority ≤ a.Priority))

instance : IsTotal Probe probeGE := ⟨fun a b => le_total b.Priority a.Priority⟩

instance : IsTrans Probe probeGE := ⟨fun _ _ _ h h' => le_trans h' h⟩

/-- sortProbesByPriority returns probes sorted by priority (descending). -/
def Orchestrator.sortProbesByPriority (o : Orchestrator) : List Probe :=
  List.insertionSort probeGE o.probes

/-- The default options `Discover` passes to every probe: a 30 second
timeout. -/
def defaultOpts : ProbeOptions := { Timeout := 30 }

/-- The error result the orchestrator synthesizes when a probe's `Run`
returns a non-nil error: `ProbeResult{ProbeCategory, Success: false,
Error: err}` (its `Endpoints` field is the zero value, nil). -/
def errorResult (p : Probe) (e : GoError) : ProbeResult :=
  { ProbeCategory := p.Category, Success := false, Endpoints := none,
    Error := some e }

/-- One goroutine body of `Discover`: run the probe with the default
options; on a non-nil error store the synthesized error result, otherwise
store `*result`.  `none` models a panic escaping the unit: either `Run`
itself panicked, or `result` was nil and the dereference `*result`
panicked (there is no `recover` in the source). -/
def execUnit (ctx : Context) (t : Target) (p : Probe) : Option ProbeResult :=
  match p.Run ctx t defaultOpts with
  | .ret _ (some e) => some (errorResult p e)
  | .ret (some r) none => some r
  | .ret none none => none
  | .crash => none

/-- Join of all goroutines: every unit fills its own slot; if any unit
panics the whole process dies (`none`). -/
def runAll (ctx : Context) (t : Target) : List Probe → Option (List ProbeResult)
  | [] => some []
  | p :: rest =>
    match execUnit ctx t p, runAll ctx t rest with
    | some r, some rs => some (r :: rs)
    | _, _ => none

/-- The probes `Discover` dispatches (and whose `Run` it invokes) for a
target: the priority-sorted probes filtered by `Accepts`. -/
def Orchestrator.acceptingProbes (o : Orchestrator) (t : Target) : List Probe :=
  o.sortProbesByPriority.filter (fun p => p.Accepts t)

/-- Discover runs all applicable probes against the target concurrently and
returns the collected results together with its (always nil) top-level
error; `none` models a crash of the process by an unrecovered panic. -/
def Orchestrator.Discover (o : Orchestrator) (ctx : Context) (t : Target) :
    Option (List ProbeResult × Option GoError) :=
  (runAll ctx t (o.acceptingProbes t)).map (fun rs => (rs, none))

/-- Lowercasing as used for dedup keys (`strings.ToLower` on ASCII). -/
def lowerStr (s : String) : String := ⟨s.data.map Char.toLower⟩

/-- endpointKey creates a unique key for an endpoint (method:path,
case-insensitive path). -/
def endpointKey (endpoint : APIEndpoint) : String :=
  endpoint.Method ++ ":" ++ lowerStr endpoint.Path

/-- The dedup keys of a list of endpoints, in order. -/
def keysOf (eps : List APIEndpoint) : List String := eps.map endpointKey

/-- The inner loop of `DedupeEndpoints` over one result's endpoints:
keep an endpoint iff its key is not yet in `seen`, inserting kept keys;
returns the kept endpoints and the final seen set. -/
def dedupeList (seen : List String) :
    List APIEndpoint → List APIEndpoint × List String
  | [] => ([], seen)
  | e :: rest =>
    if endpointKey e ∈ seen then dedupeList seen rest
    else (e :: (dedupeList (endpointKey e :: seen) rest).1,
          (dedupeList (endpointKey e :: seen) rest).2)

/-- One iteration of `DedupeEndpoints`' outer loop: copy the result's
scalar fields; if unsuccessful or without endpoints keep its endpoint
slice as-is (and leave `seen` untouched), otherwise replace it by the
deduplicated endpoints and thread the updated seen set. -/
def dedupeStep (seen : List String) (result : ProbeResult) :
    ProbeResult × List String :=
  if result.Success = false ∨ result.eps.length = 0 then
    ({ ProbeCategory := result.ProbeCategory, Success := result.Success,
       Endpoints := result.Endpoints, Error := result.Error }, seen)
  else
    ({ ProbeCategory := result.ProbeCategory, Success := result.Success,
       Endpoints := some (dedupeList seen result.eps).1,
       Error := result.Error }, (dedupeList seen result.eps).2)

/-- The outer loop of `DedupeEndpoints`, threading the global seen set. -/
def dedupeAux (seen : List String) : List ProbeResult → List ProbeResult
  | [] => []
  | r :: rest => (dedupeStep seen r).1 :: dedupeAux (dedupeStep seen r).2 rest

/-- The seen set after processing a prefix of the result list. -/
def seenAfter (seen : List String) : List ProbeResult → List String
  | [] => seen
  | r :: rest => seenAfter (dedupeStep seen r).2 rest

/-- DedupeEndpoints removes duplicate endpoints across all probe results;
deduplication is based on path+method (case-insensitive for paths). -/
def DedupeEndpoints (results : List ProbeResult) : List ProbeResult :=
  if results.length = 0 then results
  else dedupeAux [] results

/-- Whether a result's endpoints take part in deduplication (successful
and non-empty). -/
def processed (r : ProbeResult) : Bool :=
  r.Success && !(r.eps.length = 0)

/-- The keys of all endpoints of processed results strictly before index
`i` — the declarative value of the seen set when result `i` is reached. -/
def priorKeys (xs : List ProbeResult) (i : Nat) : List String :=
  ((xs.take i).filter processed).flatMap (fun r => keysOf r.eps)

/-! Concrete fixtures used by the example clauses and witnesses. -/

/-- The spec's example target. -/
def tgt : Target := { Host := "test-server", Port := 443 }

/-- Endpoint `GET /api/users`. -/
def epUsers : APIEndpoint := { Path := "/api/users", Method := "GET" }

/-- Endpoint `GET /api/posts`. -/
def epPosts : APIEndpoint := { Path := "/api/posts", Method := "GET" }

/-- Endpoint `GET /api/comments`. -/
def epComments : APIEndpoint := { Path := "/api/comments", Method := "GET" }

/-- A successful result carrying the `GET /api/users` endpoint. -/
def okResult : ProbeResult :=
  { ProbeCategory := .http, Success := true, Endpoints := some [epUsers],
    Error := none }

/-- A probe that accepts every target and succeeds with `okResult`. -/
def okProbe : Probe :=
  { Name := "ok", Category := .http, Priority := 100, Accepts := fun _ => true,
    Run := fun _ _ _ => .ret (some okResult) none }

/-- A probe that accepts every target and always returns a nil result with
a non-nil error. -/
def errProbe : Probe :=
  { Name := "bad", Category := .protocol, Priority := 50,
    Accepts := fun _ => true, Run := fun _ _ _ => .ret none (some "boom") }

/-- A probe whose `Run` panics on every target. -/
def crashProbe : Probe :=
  { Name := "crashy", Category := .http, Priority := 10,
    Accepts := fun _ => true, Run := fun _ _ _ => .crash }

/-- A probe whose `Run` returns a nil result together with a nil error. -/
def nilNilProbe : Probe :=
  { Name := "nilnil", Category := .http, Priority := 20,
    Accepts := fun _ => true, Run := fun _ _ _ => .ret none none }

/-- A probe that rejects every target and would panic if ever invoked. -/
def rejectingProbe : Probe :=
  { Name := "reject", Category := .protocol, Priority := 99,
    Accepts := fun _ => false, Run := fun _ _ _ => .crash }

/-! Orchestrator lemmas. -/

theorem runAll_isSome (ctx : Context) (t : Target) (ps : List Probe) :
    (runAll ctx t ps).isSome ↔ ∀ p ∈ ps, (execUnit ctx t p).isSome := by
  induction ps with
  | nil => simp [runAll]
  | cons p rest ih =>
    cases hu : execUnit ctx t p <;> cases hr : runAll ctx t rest <;>
      simp_all [runAll]

theorem runAll_length (ctx : Context) (t : Target) :
    ∀ (ps : List Probe) (rs : List ProbeResult),
      runAll ctx t ps = some rs → rs.length = ps.length := by
  intro ps
  induction ps with
  | nil =>
    intro rs h
    simp only [runAll, Option.some.injEq] at h
    subst h
    rfl
  | cons p rest ih =>
    intro rs h
    unfold runAll at h
    split at h
    · rename_i r rs' hu hr
      injection h with h
      subst h
      simp [ih _ hr]
    · exact Option.noConfusion h

theorem runAll_getElem (ctx : Context) (t : Target) :
    ∀ (ps : List Probe) (rs : List ProbeResult),
      runAll ctx t ps = some rs →
      ∀ i : Nat, rs[i]? = ps[i]?.bind (execUnit ctx t) := by
  intro ps
  induction ps with
  | nil =>
    intro rs h i
    simp only [runAll, Option.some.injEq] at h
    subst h
    simp
  | cons p rest ih =>
    intro rs h i
    unfold runAll at h
    split at h
    · rename_i r rs' hu hr
      injection h with h
      subst h
      cases i with
      | zero => simp [hu]
      | succ j => simpa using ih _ hr j
    · exact Option.noConfusion h

theorem runAll_none_of_mem (ctx : Context) (t : Target) {ps : List Probe}
    {p : Probe} (hp : p ∈ ps) (hu : execUnit ctx t p = none) :
    runAll ctx t ps = none := by
  induction ps with
  | nil => cases hp
  | cons q rest ih =>
    rcases List.mem_cons.mp hp with rfl | hmem
    · simp [runAll, hu]
    · cases hq : execUnit ctx t q <;> simp [runAll, hq, ih hmem]

theorem acceptingProbes_perm (o : Orchestrator) (t : Target) :
    (o.acceptingProbes t).Perm (o.probes.filter (fun p => p.Accepts t)) := by
  unfold Orchestrator.acceptingProbes Orchestrator.sortProbesByPriority
  exact (List.perm_insertionSort probeGE o.probes).filter _

theorem acceptingProbes_sorted (o : Orchestrator) (t : Target) :
    List.Sorted probeGE (o.acceptingProbes t) := by
  unfold Orchestrator.acceptingProbes Orchestrator.sortProbesByPriority
  exact List.Pairwise.sublist (List.filter_sublist _)
    (List.sorted_insertionSort probeGE o.probes)

theorem mem_acceptingProbes_accepts (o : Orchestrator) (t : Target)
    {p : Probe} (hp : p ∈ o.acceptingProbes t) : p.Accepts t = true :=
  (List.mem_filter.mp hp).2

/-- Helper for witnesses: every accepted probe of the ok/err fixture
orchestrator completes its unit normally. -/
theorem fixture_units_complete :
    ∀ p ∈ (NewOrchestrator [errProbe, okProbe]).acceptingProbes tgt,
      (execUnit {} tgt p).isSome := by
  have hacc : (NewOrchestrator [errProbe, okProbe]).acceptingProbes tgt =
      [okProbe, errProbe] := rfl
  intro p hp
  rw [hacc] at hp
  rcases List.mem_cons.mp hp with rfl | hp'
  · rfl
  rcases List.mem_cons.mp hp' with rfl | hp''
  · rfl
  · exact absurd hp'' (List.not_mem_nil p)

/-- C1: for a probe list whose accepted probes all complete their units,
with an accepted probe `pe` whose `Run` returns a non-nil error at slot `i`
and an accepted probe `pq` whose `Run` succeeds at slot `j`, `Discover`
returns one result per accepted probe, `pe`'s slot holds a failed result
with a non-nil error, `pq`'s slot holds its returned result verbatim, and
the top-level error is nil. -/
theorem discover_error_isolation (o : Orchestrator) (ctx : Context)
    (t : Target)
    (hall : ∀ p ∈ o.acceptingProbes t, (execUnit ctx t p).isSome)
    (i j : Nat) (pe pq : Probe) (res : Option ProbeResult) (e : GoError)
    (rq : ProbeResult)
    (hi : (o.acceptingProbes t)[i]? = some pe)
    (hj : (o.acceptingProbes t)[j]? = some pq)
    (he : pe.Run ctx t defaultOpts = .ret res (some e))
    (hq : pq.Run ctx t defaultOpts = .ret (some rq) none) :
    ∃ rs, o.Discover ctx t = some (rs, none) ∧
      rs.length = (o.probes.filter (fun p => p.Accepts t)).length ∧
      (∃ ri, rs[i]? = some ri ∧ ri.Success = false ∧ ri.Error ≠ none) ∧
      rs[j]? = some rq := by
  have hsome : (runAll ctx t (o.acceptingProbes t)).isSome :=
    (runAll_isSome ctx t _).mpr hall
  obtain ⟨rs, hrs⟩ := Option.isSome_iff_exists.mp hsome
  refine ⟨rs, ?_, ?_, ?_, ?_⟩
  · simp [Orchestrator.Discover, hrs]
  · rw [runAll_length ctx t _ _ hrs]
    exact (acceptingProbes_perm o t).length_eq
  · have hg := runAll_getElem ctx t _ _ hrs i
    rw [hi] at hg
    refine ⟨errorResult pe e, ?_, rfl, by simp [errorResult]⟩
    rw [hg]
    simp [execUnit, he]
  · have hg := runAll_getElem ctx t _ _ hrs j
    rw [hj] at hg
    rw [hg]
    simp [execUnit, hq]

/-- Witness for C1 on the concrete ok/err orchestrator. -/
theorem discover_error_isolation_witness :
    ∃ rs, (NewOrchestrator [errProbe, okProbe]).Discover {} tgt =
        some (rs, none) ∧
      rs.length = ((NewOrchestrator [errProbe, okProbe]).probes.filter
        (fun p => p.Accepts tgt)).length ∧
      (∃ ri, rs[1]? = some ri ∧ ri.Success = false ∧ ri.Error ≠ none) ∧
      rs[0]? = some okResult :=
  discover_error_isolation (NewOrchestrator [errProbe, okProbe]) {} tgt
    fixture_units_complete 1 0 errProbe okProbe none "boom" okResult
    rfl rfl rfl rfl

/-- C2: when every accepted probe's unit completes, `Discover` returns
exactly one result per probe accepting the target, the dispatched list is
a priority-descending ordering of the accepted probes, and the result at
index `i` is the outcome of the `i`-th dispatched probe, independently of
completion order (the embedding of each slot depends only on its own
probe's `Run`). -/
theorem discover_positional (o : Orchestrator) (ctx : Context) (t : Target)
    (hall : ∀ p ∈ o.acceptingProbes t, (execUnit ctx t p).isSome) :
    ∃ rs, o.Discover ctx t = some (rs, none) ∧
      rs.length = (o.probes.filter (fun p => p.Accepts t)).length ∧
      (o.acceptingProbes t).Perm (o.probes.filter (fun p => p.Accepts t)) ∧
      List.Sorted probeGE (o.acceptingProbes t) ∧
      ∀ i : Nat, rs[i]? = (o.acceptingProbes t)[i]?.bind (execUnit ctx t) := by
  have hsome : (runAll ctx t (o.acceptingProbes t)).isSome :=
    (runAll_isSome ctx t _).mpr hall
  obtain ⟨rs, hrs⟩ := Option.isSome_iff_exists.mp hsome
  refine ⟨rs, by simp [Orchestrator.Discover, hrs], ?_,
    acceptingProbes_perm o t, acceptingProbes_sorted o t,
    runAll_getElem ctx t _ _ hrs⟩
  rw [runAll_length ctx t _ _ hrs]
  exact (acceptingProbes_perm o t).length_eq

/-- Witness for C2 on the concrete ok/err orchestrator. -/
theorem discover_positional_witness :
    ∃ rs, (NewOrchestrator [errProbe, okProbe]).Discover {} tgt =
        some (rs, none) ∧
      rs.length = ((NewOrchestrator [errProbe, okProbe]).probes.filter
        (fun p => p.Accepts tgt)).length ∧
      ((NewOrchestrator [errProbe, okProbe]).acceptingProbes tgt).Perm
        ((NewOrchestrator [errProbe, okProbe]).probes.filter
          (fun p => p.Accepts tgt)) ∧
      List.Sorted probeGE
        ((NewOrchestrator [errProbe, okProbe]).acceptingProbes tgt) ∧
      ∀ i : Nat, rs[i]? =
        ((NewOrchestrator [errProbe, okProbe]).acceptingProbes tgt)[i]?.bind
          (execUnit {} tgt) :=
  discover_positional (NewOrchestrator [errProbe, okProbe]) {} tgt
    fixture_units_complete

/-- C3: a probe whose `Accepts` returns false for the target is not among
the dispatched probes (the only probes whose `Run` the `Discover` embedding
invokes), and any returned result list has exactly one entry per accepting
probe, hence none for it. -/
theorem accepts_false_never_run (o : Orchestrator) (ctx : Context)
    (t : Target) (p : Probe) (hn : p.Accepts t = false) :
    p ∉ o.acceptingProbes t ∧
    ∀ rs err, o.Discover ctx t = some (rs, err) →
      rs.length = (o.probes.filter (fun q => q.Accepts t)).length := by
  constructor
  · intro hp
    have hacc := mem_acceptingProbes_accepts o t hp
    rw [hn] at hacc
    exact Bool.false_ne_true hacc
  · intro rs err h
    unfold Orchestrator.Discover at h
    cases hr : runAll ctx t (o.acceptingProbes t) with
    | none => rw [hr] at h; exact Option.noConfusion h
    | some rs' =>
      rw [hr, Option.map_some'] at h
      injection h with h
      have hrs : rs' = rs := congrArg Prod.fst h
      subst hrs
      rw [runAll_length ctx t _ _ hr]
      exact (acceptingProbes_perm o t).length_eq

/-- Witness for C3: the always-rejecting probe is skipped. -/
theorem accepts_false_never_run_witness :
    rejectingProbe ∉
      (NewOrchestrator [rejectingProbe, okProbe]).acceptingProbes tgt ∧
    ∀ rs err,
      (NewOrchestrator [rejectingProbe, okProbe]).Discover {} tgt =
        some (rs, err) →
      rs.length = ((NewOrchestrator [rejectingProbe, okProbe]).probes.filter
        (fun q => q.Accepts tgt)).length :=
  accepts_false_never_run (NewOrchestrator [rejectingProbe, okProbe]) {} tgt
    rejectingProbe rfl

/-- C4 (code bug): `Discover`'s goroutine body contains no `recover`, so a
panic inside one probe's unit is not converted into an error result; it
kills the whole process, sibling probes included.  Evaluating the embedding
on an orchestrator holding a panicking probe and a healthy probe yields the
crash value instead of a result list. -/
theorem probe_panic_crashes_discover :
    (NewOrchestrator [crashProbe, okProbe]).Discover {} tgt = none := by
  decide

/-- C9: an accepted probe whose `Run` returns a non-nil error — with or
without a result object — gets exactly
`ProbeResult{ProbeCategory: p.Category(), Success: false, Error: err}`
(nil endpoints) in its slot, and `Discover`'s own error stays nil. -/
theorem discover_error_result_shape (o : Orchestrator) (ctx : Context)
    (t : Target)
    (hall : ∀ p ∈ o.acceptingProbes t, (execUnit ctx t p).isSome)
    (i : Nat) (pe : Probe) (res : Option ProbeResult) (e : GoError)
    (hi : (o.acceptingProbes t)[i]? = some pe)
    (he : pe.Run ctx t defaultOpts = .ret res (some e)) :
    ∃ rs, o.Discover ctx t = some (rs, none) ∧
      rs[i]? = some { ProbeCategory := pe.Category, Success := false,
                      Endpoints := none, Error := some e } := by
  have hsome : (runAll ctx t (o.acceptingProbes t)).isSome :=
    (runAll_isSome ctx t _).mpr hall
  obtain ⟨rs, hrs⟩ := Option.isSome_iff_exists.mp hsome
  refine ⟨rs, by simp [Orchestrator.Discover, hrs], ?_⟩
  have hg := runAll_getElem ctx t _ _ hrs i
  rw [hi] at hg
  rw [hg]
  simp [execUnit, he, errorResult]

/-- Witness for C9: the erroring probe's slot in the fixture. -/
theorem discover_error_result_shape_witness :
    ∃ rs, (NewOrchestrator [errProbe, okProbe]).Discover {} tgt =
        some (rs, none) ∧
      rs[1]? = some { ProbeCategory := errProbe.Category, Success := false,
                      Endpoints := none, Error := some "boom" } :=
  discover_error_result_shape (NewOrchestrator [errProbe, okProbe]) {} tgt
    fixture_units_complete 1 errProbe none "boom" rfl rfl

/-- C10 (implicit): `results[idx] = *result` dereferences the returned
pointer without a nil check, so an accepted probe returning `(nil, nil)`
crashes `Discover`; conversely, when every accepted probe's `Run` returns
and never pairs a nil result with a nil error, the dereference is safe and
`Discover` returns. -/
theorem discover_nil_result_dereference (o : Orchestrator) (ctx : Context)
    (t : Target) :
    ((∃ p ∈ o.acceptingProbes t, p.Run ctx t defaultOpts = .ret none none) →
      o.Discover ctx t = none) ∧
    ((∀ p ∈ o.acceptingProbes t, ∃ res err,
        p.Run ctx t defaultOpts = .ret res err ∧ (err = none → res ≠ none)) →
      (o.Discover ctx t).isSome) := by
  constructor
  · rintro ⟨p, hp, hrun⟩
    have hu : execUnit ctx t p = none := by simp [execUnit, hrun]
    unfold Orchestrator.Discover
    rw [runAll_none_of_mem ctx t hp hu]
    rfl
  · intro hall
    have hsome : ∀ p ∈ o.acceptingProbes t, (execUnit ctx t p).isSome := by
      intro p hp
      obtain ⟨res, err, hrun, himp⟩ := hall p hp
      cases err with
      | some e => simp [execUnit, hrun]
      | none =>
        cases res with
        | none => exact absurd rfl (himp rfl)
        | some r => simp [execUnit, hrun]
    have h := (runAll_isSome ctx t _).mpr hsome
    obtain ⟨rs, hrs⟩ := Option.isSome_iff_exists.mp h
    simp [Orchestrator.Discover, hrs]

/-- Witness for C10: the nil/nil probe crashes `Discover`; the healthy
fixture orchestrator's `Discover` returns. -/
theorem discover_nil_result_dereference_witness :
    (NewOrchestrator [nilNilProbe]).Discover {} tgt = none ∧
    ((NewOrchestrator [errProbe, okProbe]).Discover {} tgt).isSome := by
  constructor
  · exact (discover_nil_result_dereference (NewOrchestrator [nilNilProbe])
      {} tgt).1 ⟨nilNilProbe, List.mem_cons_self _ _, rfl⟩
  · refine (discover_nil_result_dereference
      (NewOrchestrator [errProbe, okProbe]) {} tgt).2 ?_
    have hacc : (NewOrchestrator [errProbe, okProbe]).acceptingProbes tgt =
        [okProbe, errProbe] := rfl
    intro p hp
    rw [hacc] at hp
    rcases List.mem_cons.mp hp with rfl | hp'
    · exact ⟨some okResult, none, rfl, fun _ => Option.noConfusion⟩
    rcases List.mem_cons.mp hp' with rfl | hp''
    · exact ⟨none, some "boom", rfl, fun hc => Option.noConfusion hc⟩
    · exact absurd hp'' (List.not_mem_nil p)

/-! Deduplication lemmas. -/

theorem DedupeEndpoints_eq_aux (results : List ProbeResult) :
    DedupeEndpoints results = dedupeAux [] results := by
  cases results <;> rfl

theorem keysOf_cons (e : APIEndpoint) (rest : List APIEndpoint) :
    keysOf (e :: rest) = endpointKey e :: keysOf rest := rfl

theorem dedupeStep_pass (seen : List String) (r : ProbeResult)
    (h : r.Success = false ∨ r.eps.length = 0) :
    dedupeStep seen r = (r, seen) := by
  unfold dedupeStep
  rw [if_pos h]

theorem dedupeAux_length (seen : List String) (xs : List ProbeResult) :
    (dedupeAux seen xs).length = xs.length := by
  induction xs generalizing seen with
  | nil => rfl
  | cons r rest ih => simp [dedupeAux, ih]

theorem dedupeAux_append (seen : List String) (as bs : List ProbeResult) :
    dedupeAux seen (as ++ bs) =
      dedupeAux seen as ++ dedupeAux (seenAfter seen as) bs := by
  induction as generalizing seen with
  | nil => rfl
  | cons r rest ih => simp [dedupeAux, seenAfter, ih]

theorem dedupeList_snd_mem (eps : List APIEndpoint) :
    ∀ (seen : List String) (k : String),
      (k ∈ (dedupeList seen eps).2 ↔ k ∈ seen ∨ k ∈ keysOf eps) := by
  induction eps with
  | nil => intro seen k; simp [dedupeList, keysOf]
  | cons e rest ih =>
    intro seen k
    unfold dedupeList
    by_cases he : endpointKey e ∈ seen
    · rw [if_pos he, ih seen k, keysOf_cons]
      simp only [List.mem_cons]
      constructor
      · rintro (h | h)
        · exact Or.inl h
        · exact Or.inr (Or.inr h)
      · rintro (h | rfl | h)
        · exact Or.inl h
        · exact Or.inl he
        · exact Or.inr h
    · rw [if_neg he]
      rw [ih (endpointKey e :: seen) k, keysOf_cons]
      simp only [List.mem_cons]
      tauto

theorem dedupeList_fst_sublist (eps : List APIEndpoint) :
    ∀ seen : List String, (dedupeList seen eps).1.Sublist eps := by
  induction eps with
  | nil => intro seen; simp [dedupeList]
  | cons e rest ih =>
    intro seen
    unfold dedupeList
    by_cases he : endpointKey e ∈ seen
    · rw [if_pos he]
      exact (ih seen).trans (List.sublist_cons_self e rest)
    · rw [if_neg he]
      exact (ih _).cons₂ e

theorem dedupeList_mem_fst (eps : List APIEndpoint) :
    ∀ (seen : List String) (x : APIEndpoint),
      (x ∈ (dedupeList seen eps).1 ↔
        ∃ n : Nat, eps[n]? = some x ∧ endpointKey x ∉ seen ∧
          endpointKey x ∉ keysOf (eps.take n)) := by
  induction eps with
  | nil => intro seen x; simp [dedupeList]
  | cons e rest ih =>
    intro seen x
    unfold dedupeList
    by_cases he : endpointKey e ∈ seen
    · rw [if_pos he, ih seen x]
      constructor
      · rintro ⟨n, hn, hx, ht⟩
        refine ⟨n + 1, by simpa using hn, hx, ?_⟩
        rw [List.take_succ_cons, keysOf_cons]
        intro hc
        rcases List.mem_cons.mp hc with hc' | hc'
        · exact hx (hc' ▸ he)
        · exact ht hc'
      · rintro ⟨n, hn, hx, ht⟩
        cases n with
        | zero =>
          simp only [List.getElem?_cons_zero, Option.some.injEq] at hn
          exact absurd (hn ▸ he) hx
        | succ m =>
          refine ⟨m, by simpa using hn, hx, ?_⟩
          rw [List.take_succ_cons, keysOf_cons] at ht
          exact fun hc => ht (List.mem_cons_of_mem _ hc)
    · rw [if_neg he]
      rw [List.mem_cons, ih (endpointKey e :: seen) x]
      constructor
      · rintro (rfl | ⟨n, hn, hx, ht⟩)
        · exact ⟨0, by simp, he, by simp [keysOf]⟩
        · refine ⟨n + 1, by simpa using hn,
            fun hc => hx (List.mem_cons_of_mem _ hc), ?_⟩
          rw [List.take_succ_cons, keysOf_cons]
          intro hc
          rcases List.mem_cons.mp hc with hc' | hc'
          · exact hx (hc' ▸ List.mem_cons_self _ _)
          · exact ht hc'
      · rintro ⟨n, hn, hx, ht⟩
        cases n with
        | zero =>
          simp only [List.getElem?_cons_zero, Option.some.injEq] at hn
          exact Or.inl hn.symm
        | succ m =>
          rw [List.take_succ_cons, keysOf_cons] at ht
          refine Or.inr ⟨m, by simpa using hn, ?_, ?_⟩
          · intro hc
            rcases List.mem_cons.mp hc with hc' | hc'
            · exact ht (hc' ▸ List.mem_cons_self _ _)
            · exact hx hc'
          · exact fun hc => ht (List.mem_cons_of_mem _ hc)

theorem dedupeList_fst_keys (eps : List APIEndpoint) :
    ∀ seen : List String,
      (keysOf (dedupeList seen eps).1).Nodup ∧
        ∀ k ∈ keysOf (dedupeList seen eps).1, k ∉ seen := by
  induction eps with
  | nil => intro seen; simp [dedupeList, keysOf]
  | cons e rest ih =>
    intro seen
    unfold dedupeList
    by_cases he : endpointKey e ∈ seen
    · rw [if_pos he]
      exact ih seen
    · rw [if_neg he]
      obtain ⟨hnd, hns⟩ := ih (endpointKey e :: seen)
      rw [keysOf_cons]
      constructor
      · exact List.nodup_cons.mpr
          ⟨fun hc => hns _ hc (List.mem_cons_self _ _), hnd⟩
      · intro k hk
        rcases List.mem_cons.mp hk with rfl | hk'
        · exact he
        · exact fun hks => hns k hk' (List.mem_cons_of_mem _ hks)

theorem dedupeList_fst_of_new (eps : List APIEndpoint) :
    ∀ seen : List String, (keysOf eps).Nodup →
      (∀ k ∈ keysOf eps, k ∉ seen) → (dedupeList seen eps).1 = eps := by
  induction eps with
  | nil => intro seen _ _; rfl
  | cons e rest ih =>
    intro seen hnd hnew
    rw [keysOf_cons] at hnd hnew
    unfold dedupeList
    rw [if_neg (hnew _ (List.mem_cons_self _ _))]
    simp only [List.cons.injEq, true_and]
    apply ih
    · exact (List.nodup_cons.mp hnd).2
    · intro k hk hks
      rcases List.mem_cons.mp hks with rfl | hks'
      · exact (List.nodup_cons.mp hnd).1 hk
      · exact hnew k (List.mem_cons_of_mem _ hk) hks'

theorem dedupeList_snd_mem_kept (eps : List APIEndpoint) :
    ∀ (seen : List String) (k : String),
      (k ∈ (dedupeList seen eps).2 ↔
        k ∈ seen ∨ k ∈ keysOf (dedupeList seen eps).1) := by
  induction eps with
  | nil => intro seen k; simp [dedupeList, keysOf]
  | cons e rest ih =>
    intro seen k
    unfold dedupeList
    by_cases he : endpointKey e ∈ seen
    · rw [if_pos he]
      exact ih seen k
    · rw [if_neg he]
      simp only [keysOf_cons, List.mem_cons]
      rw [ih (endpointKey e :: seen) k]
      simp only [List.mem_cons]
      tauto

theorem processed_eq_false_iff (r : ProbeResult) :
    processed r = false ↔ (r.Success = false ∨ r.eps.length = 0) := by
  unfold processed
  cases hs : r.Success <;> simp [hs]

theorem dedupeStep_snd_mem (seen : List String) (r : ProbeResult)
    (k : String) :
    k ∈ (dedupeStep seen r).2 ↔
      k ∈ seen ∨ (processed r = true ∧ k ∈ keysOf r.eps) := by
  unfold dedupeStep
  by_cases h : r.Success = false ∨ r.eps.length = 0
  · rw [if_pos h]
    have hp : processed r = false := (processed_eq_false_iff r).mpr h
    simp [hp]
  · rw [if_neg h]
    have hp : processed r = true := by
      cases hpv : processed r with
      | false => exact absurd ((processed_eq_false_iff r).mp hpv) h
      | true => rfl
    simp only [hp, true_and]
    exact dedupeList_snd_mem r.eps seen k

theorem seenAfter_mem (xs : List ProbeResult) :
    ∀ (seen : List String) (k : String),
      (k ∈ seenAfter seen xs ↔
        k ∈ seen ∨ ∃ r ∈ xs, processed r = true ∧ k ∈ keysOf r.eps) := by
  induction xs with
  | nil => intro seen k; simp [seenAfter]
  | cons r rest ih =>
    intro seen k
    show k ∈ seenAfter (dedupeStep seen r).2 rest ↔ _
    rw [ih (dedupeStep seen r).2 k, dedupeStep_snd_mem seen r k]
    constructor
    · rintro ((h | ⟨hp, hk⟩) | ⟨r', hr', hp, hk⟩)
      · exact Or.inl h
      · exact Or.inr ⟨r, List.mem_cons_self _ _, hp, hk⟩
      · exact Or.inr ⟨r', List.mem_cons_of_mem _ hr', hp, hk⟩
    · rintro (h | ⟨r', hr', hp, hk⟩)
      · exact Or.inl (Or.inl h)
      · rcases List.mem_cons.mp hr' with rfl | hr''
        · exact Or.inl (Or.inr ⟨hp, hk⟩)
        · exact Or.inr ⟨r', hr'', hp, hk⟩

theorem dedupeAux_getElem (xs : List ProbeResult) :
    ∀ (seen : List String) (i : Nat),
      (dedupeAux seen xs)[i]? =
        (xs[i]?).map
          (fun r => (dedupeStep (seenAfter seen (xs.take i)) r).1) := by
  induction xs with
  | nil => intro seen i; simp [dedupeAux]
  | cons r rest ih =>
    intro seen i
    cases i with
    | zero => simp [dedupeAux, seenAfter, List.take_zero]
    | succ j =>
      have hd : dedupeAux seen (r :: rest) =
          (dedupeStep seen r).1 :: dedupeAux (dedupeStep seen r).2 rest := rfl
      rw [hd, List.getElem?_cons_succ, List.getElem?_cons_succ,
        List.take_succ_cons, ih (dedupeStep seen r).2 j]
      rfl

theorem priorKeys_mem (xs : List ProbeResult) (i : Nat) (k : String) :
    k ∈ priorKeys xs i ↔
      ∃ r ∈ xs.take i, processed r = true ∧ k ∈ keysOf r.eps := by
  unfold priorKeys
  simp only [List.mem_flatMap, List.mem_filter]
  constructor
  · rintro ⟨r, ⟨hr, hp⟩, hk⟩
    exact ⟨r, hr, hp, hk⟩
  · rintro ⟨r, hr, hp, hk⟩
    exact ⟨r, ⟨hr, hp⟩, hk⟩

theorem seenAfter_take_priorKeys (xs : List ProbeResult) (i : Nat)
    (k : String) :
    k ∈ seenAfter [] (xs.take i) ↔ k ∈ priorKeys xs i := by
  rw [seenAfter_mem, priorKeys_mem]
  simp

theorem probeResult_eq (x y : ProbeResult)
    (h1 : x.ProbeCategory = y.ProbeCategory) (h2 : x.Success = y.Success)
    (h3 : x.Endpoints = y.Endpoints) (h4 : x.Error = y.Error) : x = y := by
  cases x; cases y; simp_all

theorem dedupeStep_fst_fields (s : List String) (r : ProbeResult) :
    (dedupeStep s r).1.ProbeCategory = r.ProbeCategory ∧
    (dedupeStep s r).1.Success = r.Success ∧
    (dedupeStep s r).1.Error = r.Error := by
  unfold dedupeStep
  split <;> exact ⟨rfl, rfl, rfl⟩

theorem dedupeStep_fst_endpoints (s : List String) (r : ProbeResult)
    (hc : ¬(r.Success = false ∨ r.eps.length = 0)) :
    (dedupeStep s r).1.Endpoints = some (dedupeList s r.eps).1 := by
  unfold dedupeStep
  rw [if_neg hc]

theorem dedupeStep_snd_processed (s : List String) (r : ProbeResult)
    (hc : ¬(r.Success = false ∨ r.eps.length = 0)) :
    (dedupeStep s r).2 = (dedupeList s r.eps).2 := by
  unfold dedupeStep
  rw [if_neg hc]

theorem eps_of_endpoints_some (r : ProbeResult) (l : List APIEndpoint)
    (h : r.Endpoints = some l) : r.eps = l := by
  unfold ProbeResult.eps
  rw [h]
  rfl

theorem dedupeList_fst_congr (eps : List APIEndpoint) :
    ∀ s₁ s₂ : List String, (∀ k, k ∈ s₁ ↔ k ∈ s₂) →
      (dedupeList s₁ eps).1 = (dedupeList s₂ eps).1 := by
  induction eps with
  | nil => intro s₁ s₂ _; rfl
  | cons e rest ih =>
    intro s₁ s₂ h
    unfold dedupeList
    by_cases he : endpointKey e ∈ s₁
    · rw [if_pos he, if_pos ((h _).mp he)]
      exact ih s₁ s₂ h
    · rw [if_neg he, if_neg (fun hc => he ((h _).mpr hc))]
      simp only [List.cons.injEq, true_and]
      apply ih
      intro k
      simp only [List.mem_cons]
      rw [h k]

theorem dedupeStep_fst_congr (s₁ s₂ : List String) (r : ProbeResult)
    (h : ∀ k, k ∈ s₁ ↔ k ∈ s₂) :
    (dedupeStep s₁ r).1 = (dedupeStep s₂ r).1 := by
  by_cases hc : r.Success = false ∨ r.eps.length = 0
  · rw [dedupeStep_pass s₁ r hc, dedupeStep_pass s₂ r hc]
  · apply probeResult_eq
    · rw [(dedupeStep_fst_fields s₁ r).1, (dedupeStep_fst_fields s₂ r).1]
    · rw [(dedupeStep_fst_fields s₁ r).2.1, (dedupeStep_fst_fields s₂ r).2.1]
    · rw [dedupeStep_fst_endpoints s₁ r hc, dedupeStep_fst_endpoints s₂ r hc,
        dedupeList_fst_congr r.eps s₁ s₂ h]
    · rw [(dedupeStep_fst_fields s₁ r).2.2, (dedupeStep_fst_fields s₂ r).2.2]

theorem dedupeStep_snd_congr (s₁ s₂ : List String) (r : ProbeResult)
    (h : ∀ k, k ∈ s₁ ↔ k ∈ s₂) (k : String) :
    k ∈ (dedupeStep s₁ r).2 ↔ k ∈ (dedupeStep s₂ r).2 := by
  rw [dedupeStep_snd_mem, dedupeStep_snd_mem, h k]

theorem dedupeStep_idem (s : List String) (r : ProbeResult) :
    (dedupeStep s (dedupeStep s r).1).1 = (dedupeStep s r).1 ∧
    ∀ k, (k ∈ (dedupeStep s (dedupeStep s r).1).2 ↔
      k ∈ (dedupeStep s r).2) := by
  by_cases hc : r.Success = false ∨ r.eps.length = 0
  · simp [dedupeStep_pass s r hc]
  · have heps : (dedupeStep s r).1.eps = (dedupeList s r.eps).1 :=
      eps_of_endpoints_some _ _ (dedupeStep_fst_endpoints s r hc)
    have hsnd : (dedupeStep s r).2 = (dedupeList s r.eps).2 :=
      dedupeStep_snd_processed s r hc
    by_cases hl : (dedupeList s r.eps).1.length = 0
    · have hpass : dedupeStep s (dedupeStep s r).1 = ((dedupeStep s r).1, s) :=
        dedupeStep_pass s _ (Or.inr (by rw [heps]; exact hl))
      refine ⟨by rw [hpass], ?_⟩
      intro k
      rw [hpass, hsnd]
      rw [dedupeList_snd_mem_kept r.eps s k]
      have hnil : (dedupeList s r.eps).1 = [] :=
        List.eq_nil_of_length_eq_zero hl
      simp [hnil, keysOf]
    · have hc2 : ¬((dedupeStep s r).1.Success = false ∨
          (dedupeStep s r).1.eps.length = 0) := by
        rintro (h | h)
        · rw [(dedupeStep_fst_fields s r).2.1] at h
          exact hc (Or.inl h)
        · rw [heps] at h
          exact hl h
      have hll : (dedupeList s ((dedupeList s r.eps).1)).1 =
          (dedupeList s r.eps).1 :=
        dedupeList_fst_of_new _ s (dedupeList_fst_keys r.eps s).1
          (dedupeList_fst_keys r.eps s).2
      constructor
      · apply probeResult_eq
        · rw [(dedupeStep_fst_fields s _).1, (dedupeStep_fst_fields s r).1]
        · rw [(dedupeStep_fst_fields s _).2.1,
            (dedupeStep_fst_fields s r).2.1]
        · rw [dedupeStep_fst_endpoints s _ hc2,
            dedupeStep_fst_endpoints s r hc, heps, hll]
        · rw [(dedupeStep_fst_fields s _).2.2,
            (dedupeStep_fst_fields s r).2.2]
      · intro k
        rw [dedupeStep_snd_processed s _ hc2, hsnd, heps]
        rw [dedupeList_snd_mem_kept ((dedupeList s r.eps).1) s k,
          dedupeList_snd_mem_kept r.eps s k, hll]

theorem dedupeAux_idem_gen (xs : List ProbeResult) :
    ∀ s t : List String, (∀ k, k ∈ t ↔ k ∈ s) →
      dedupeAux t (dedupeAux s xs) = dedupeAux s xs := by
  induction xs with
  | nil => intro s t _; rfl
  | cons r rest ih =>
    intro s t h
    have hexp : dedupeAux s (r :: rest) =
        (dedupeStep s r).1 :: dedupeAux (dedupeStep s r).2 rest := rfl
    rw [hexp]
    have hexp2 :
        dedupeAux t ((dedupeStep s r).1 ::
          dedupeAux (dedupeStep s r).2 rest) =
        (dedupeStep t (dedupeStep s r).1).1 ::
          dedupeAux (dedupeStep t (dedupeStep s r).1).2
            (dedupeAux (dedupeStep s r).2 rest) := rfl
    rw [hexp2]
    have hfst : (dedupeStep t (dedupeStep s r).1).1 = (dedupeStep s r).1 := by
      rw [dedupeStep_fst_congr t s _ h]
      exact (dedupeStep_idem s r).1
    have hsnd : ∀ k, k ∈ (dedupeStep t (dedupeStep s r).1).2 ↔
        k ∈ (dedupeStep s r).2 := by
      intro k
      rw [dedupeStep_snd_congr t s _ h k]
      exact (dedupeStep_idem s r).2 k
    rw [hfst, ih (dedupeStep s r).2 (dedupeStep t (dedupeStep s r).1).2 hsnd]

/-! Deduplication fixtures and claims. -/

/-- Result A of the spec's cross-result example. -/
def resA : ProbeResult :=
  { ProbeCategory := .http, Success := true,
    Endpoints := some [epUsers, epPosts], Error := none }

/-- Result B of the spec's cross-result example. -/
def resB : ProbeResult :=
  { ProbeCategory := .http, Success := true,
    Endpoints := some [epUsers, epComments], Error := none }

/-- Result B after deduplication against A. -/
def resBDeduped : ProbeResult :=
  { ProbeCategory := .http, Success := true,
    Endpoints := some [epComments], Error := none }

/-- A result with two endpoints whose paths differ only in case. -/
def caseResult : ProbeResult :=
  { ProbeCategory := .http, Success := true,
    Endpoints := some [{ Path := "/API/Users", Method := "GET" }, epUsers],
    Error := none }

/-- The case-collapse result after deduplication: one entry survives. -/
def caseResultDeduped : ProbeResult :=
  { ProbeCategory := .http, Success := true,
    Endpoints := some [{ Path := "/API/Users", Method := "GET" }],
    Error := none }

/-- A result with the same path under two methods: both survive. -/
def methodResult : ProbeResult :=
  { ProbeCategory := .http, Success := true,
    Endpoints := some [epUsers, { Path := "/api/users", Method := "POST" }],
    Error := none }

/-- A failed result with nil endpoints. -/
def failResult : ProbeResult :=
  { ProbeCategory := .protocol, Success := false, Endpoints := none,
    Error := some "connection refused" }

/-- C5: `DedupeEndpoints` keeps, for each successful non-empty result, the
sublist of its endpoints whose key `method + ":" + lowercase(path)` has no
earlier occurrence — neither among earlier processed results (one global
seen set) nor earlier in the same list — and on the spec's concrete
examples: cross-result A/B dedup, case-insensitive path collapse, and
method distinction. -/
theorem dedupe_first_occurrence :
    (∀ (xs : List ProbeResult) (i : Nat) (r : ProbeResult),
        xs[i]? = some r → r.Success = true → r.eps.length ≠ 0 →
        ∃ l, (DedupeEndpoints xs)[i]? =
            some { ProbeCategory := r.ProbeCategory, Success := r.Success,
                   Endpoints := some l, Error := r.Error } ∧
          l.Sublist r.eps ∧
          ∀ x, (x ∈ l ↔ ∃ n : Nat, r.eps[n]? = some x ∧
            endpointKey x ∉ priorKeys xs i ∧
            endpointKey x ∉ keysOf (r.eps.take n))) ∧
    DedupeEndpoints [resA, resB] = [resA, resBDeduped] ∧
    DedupeEndpoints [caseResult] = [caseResultDeduped] ∧
    DedupeEndpoints [methodResult] = [methodResult] := by
  refine ⟨?_, by decide, by decide, by decide⟩
  intro xs i r hi hs hne
  have hc : ¬(r.Success = false ∨ r.eps.length = 0) := by
    rintro (h | h)
    · rw [hs] at h
      exact Bool.noConfusion h
    · exact hne h
  rw [DedupeEndpoints_eq_aux, dedupeAux_getElem xs [] i, hi, Option.map_some']
  refine ⟨(dedupeList (seenAfter [] (xs.take i)) r.eps).1, ?_,
    dedupeList_fst_sublist r.eps _, ?_⟩
  · congr 1
    apply probeResult_eq
    · exact (dedupeStep_fst_fields _ r).1
    · exact (dedupeStep_fst_fields _ r).2.1
    · exact dedupeStep_fst_endpoints _ r hc
    · exact (dedupeStep_fst_fields _ r).2.2
  · intro x
    rw [dedupeList_mem_fst r.eps _ x]
    constructor
    · rintro ⟨n, hn, hx, ht⟩
      exact ⟨n, hn, fun hp => hx ((seenAfter_take_priorKeys xs i _).mpr hp),
        ht⟩
    · rintro ⟨n, hn, hx, ht⟩
      exact ⟨n, hn, fun hp => hx ((seenAfter_take_priorKeys xs i _).mp hp),
        ht⟩

/-- Witness for C5: slot 1 of the A/B example, with the first-occurrence
characterisation instantiated. -/
theorem dedupe_first_occurrence_witness :
    ∃ l, (DedupeEndpoints [resA, resB])[1]? =
        some { ProbeCategory := resB.ProbeCategory, Success := resB.Success,
               Endpoints := some l, Error := resB.Error } ∧
      l.Sublist resB.eps ∧
      ∀ x, (x ∈ l ↔ ∃ n : Nat, resB.eps[n]? = some x ∧
        endpointKey x ∉ priorKeys [resA, resB] 1 ∧
        endpointKey x ∉ keysOf (resB.eps.take n)) :=
  dedupe_first_occurrence.1 [resA, resB] 1 resB (by decide) (by decide)
    (by decide)

/-- C6: `DedupeEndpoints` is idempotent. -/
theorem dedupe_idempotent (xs : List ProbeResult) :
    DedupeEndpoints (DedupeEndpoints xs) = DedupeEndpoints xs := by
  rw [DedupeEndpoints_eq_aux xs, DedupeEndpoints_eq_aux (dedupeAux [] xs)]
  exact dedupeAux_idem_gen xs [] [] (fun k => Iff.rfl)

/-- C7: a failed or endpoint-less result is passed through bit-for-bit at
its position (its endpoint list, nil or empty, untouched), and its
endpoints never enter the seen set: deduping with the result inserted
equals deduping without it, with the untouched result spliced back in. -/
theorem dedupe_passthrough_insertion (xs ys : List ProbeResult)
    (r : ProbeResult) (h : r.Success = false ∨ r.eps.length = 0) :
    DedupeEndpoints (xs ++ r :: ys) =
      (DedupeEndpoints (xs ++ ys)).take xs.length ++
        r :: (DedupeEndpoints (xs ++ ys)).drop xs.length := by
  rw [DedupeEndpoints_eq_aux, DedupeEndpoints_eq_aux]
  rw [dedupeAux_append [] xs (r :: ys), dedupeAux_append [] xs ys]
  have hcons : dedupeAux (seenAfter [] xs) (r :: ys) =
      r :: dedupeAux (seenAfter [] xs) ys := by
    have hexp : dedupeAux (seenAfter [] xs) (r :: ys) =
        (dedupeStep (seenAfter [] xs) r).1 ::
          dedupeAux (dedupeStep (seenAfter [] xs) r).2 ys := rfl
    rw [hexp, dedupeStep_pass _ r h]
  rw [hcons, List.take_left' (dedupeAux_length [] xs),
    List.drop_left' (dedupeAux_length [] xs)]

/-- Witness for C7: splicing the failed result between A and B. -/
theorem dedupe_passthrough_insertion_witness :
    DedupeEndpoints ([resA] ++ failResult :: [resB]) =
      (DedupeEndpoints ([resA] ++ [resB])).take [resA].length ++
        failResult :: (DedupeEndpoints ([resA] ++ [resB])).drop
          [resA].length :=
  dedupe_passthrough_insertion [resA] [resB] failResult (Or.inl rfl)

/-! Capability registry (`pkg/registry`). -/

/-- Config holds configuration for capability instantiation; the registry
treats it as an opaque map passed through to factories. -/
structure Config where
  entries : List (String × String)

/-- ErrNotFound is returned when a capability is not registered. -/
def ErrNotFound : GoError := "capability not found"

/-- A capability factory: Go `func(Config) (T, error)`. -/
def Factory (T : Type) := Config → T × Option GoError

/-- Registry manages registered capabilities of a specific type.  The Go
map is modelled as an association list in which `Register` replaces an
existing binding in place or appends a fresh one. -/
structure Registry (T : Type) where
  factories : List (String × Factory T)
  name : String

/-- New creates a new registry with the given name. -/
def Registry.New (T : Type) (name : String) : Registry T :=
  { factories := [], name := name }

/-- Map assignment `r.factories[name] = factory`: replace the existing
binding or add a new one. -/
def updateAssoc {T : Type} (name : String) (factory : Factory T) :
    List (String × Factory T) → List (String × Factory T)
  | [] => [(name, factory)]
  | (n, g) :: rest =>
    if n = name then (name, factory) :: rest
    else (n, g) :: updateAssoc name factory rest

/-- Register adds a factory function for the given capability name; if a
factory with the same name already exists, it is replaced. -/
def Registry.Register {T : Type} (r : Registry T) (name : String)
    (factory : Factory T) : Registry T :=
  { r with factories := updateAssoc name factory r.factories }

/-- Create instantiates a capability by name with the given config,
returning the zero value and a wrapped `ErrNotFound` when the name is not
registered, and the factory's product and error unchanged otherwise. -/
def Registry.Create {T : Type} [Inhabited T] (r : Registry T)
    (name : String) (cfg : Config) : T × Option GoError :=
  match List.lookup name r.factories with
  | none => (default,
      some (ErrNotFound ++ ": " ++ name ++ " in " ++ r.name ++ " registry"))
  | some factory => factory cfg

/-- List returns all registered capability names, sorted alphabetically. -/
def Registry.List {T : Type} (r : Registry T) : List String :=
  List.insertionSort (· ≤ ·) (r.factories.map Prod.fst)

/-- Has checks if a capability is registered. -/
def Registry.Has {T : Type} (r : Registry T) (name : String) : Bool :=
  (List.lookup name r.factories).isSome

/-- Count returns the number of registered capabilities. -/
def Registry.Count {T : Type} (r : Registry T) : Nat :=
  r.factories.length

theorem lookup_updateAssoc_self {T : Type} (name : String) (f : Factory T) :
    ∀ l : List (String × Factory T),
      List.lookup name (updateAssoc name f l) = some f := by
  intro l
  induction l with
  | nil => simp [updateAssoc, List.lookup]
  | cons kv rest ih =>
    obtain ⟨n, g⟩ := kv
    unfold updateAssoc
    by_cases h : n = name
    · rw [if_pos h]
      simp [List.lookup]
    · rw [if_neg h]
      have hbe : (name == n) = false := by
        simp only [beq_eq_false_iff_ne, ne_eq]
        exact fun hc => h hc.symm
      simp only [List.lookup, hbe]
      exact ih

theorem mem_keys_updateAssoc {T : Type} (name m : String) (f : Factory T) :
    ∀ l : List (String × Factory T),
      (m ∈ (updateAssoc name f l).map Prod.fst ↔
        m = name ∨ m ∈ l.map Prod.fst) := by
  intro l
  induction l with
  | nil => simp [updateAssoc]
  | cons kv rest ih =>
    obtain ⟨n, g⟩ := kv
    unfold updateAssoc
    by_cases h : n = name
    · rw [if_pos h]
      subst h
      simp [List.mem_cons]
    · rw [if_neg h]
      simp only [List.map_cons, List.mem_cons, ih]
      tauto

theorem lookup_isSome_iff_mem_keys {T : Type} (m : String) :
    ∀ l : List (String × Factory T),
      ((List.lookup m l).isSome ↔ m ∈ l.map Prod.fst) := by
  intro l
  induction l with
  | nil => simp [List.lookup]
  | cons kv rest ih =>
    obtain ⟨n, g⟩ := kv
    simp only [List.lookup, List.map_cons, List.mem_cons]
    by_cases h : m = n
    · subst h
      simp
    · have hbe : (m == n) = false := by
        simp only [beq_eq_false_iff_ne, ne_eq]
        exact h
      simp [hbe, ih, h]

/-- C8: after `Register(name, factory)`, `Has(name)` holds, `Create(name,
cfg)` invokes exactly that factory and returns its product and error
unchanged, `List()` is alphabetically sorted, contains `name`, and holds
precisely the registered names; a second `Register` of the same name
replaces the factory, so a later `Create` runs the latest one. -/
theorem registry_roundtrip {T : Type} [Inhabited T] (r : Registry T)
    (name : String) (f : Factory T) (cfg : Config) (g : Factory T)
    (cfg' : Config) :
    (r.Register name f).Has name = true ∧
    (r.Register name f).Create name cfg = f cfg ∧
    name ∈ (r.Register name f).List ∧
    List.Sorted (· ≤ ·) (r.Register name f).List ∧
    (∀ m, m ∈ (r.Register name f).List ↔ (r.Register name f).Has m = true) ∧
    ((r.Register name f).Register name g).Create name cfg' = g cfg' := by
  have hmem : ∀ m l, m ∈ List.insertionSort (α := String) (· ≤ ·) l ↔ m ∈ l :=
    fun m l => (List.perm_insertionSort (· ≤ ·) l).mem_iff
  refine ⟨?_, ?_, ?_, ?_, ?_, ?_⟩
  · unfold Registry.Has Registry.Register
    rw [lookup_updateAssoc_self name f r.factories]
    rfl
  · unfold Registry.Create Registry.Register
    rw [lookup_updateAssoc_self name f r.factories]
  · unfold Registry.List Registry.Register
    rw [hmem, mem_keys_updateAssoc]
    exact Or.inl rfl
  · exact List.sorted_insertionSort (· ≤ ·) _
  · intro m
    unfold Registry.List Registry.Has Registry.Register
    rw [hmem, ← lookup_isSome_iff_mem_keys]
  · unfold Registry.Create Registry.Register
    rw [lookup_updateAssoc_self name g]

/-- Witness for C8 at a concrete registry, name, and factories. -/
theorem registry_roundtrip_witness :
    ((Registry.New Nat "probes").Register "crawler"
        (fun _ => (7, none))).Has "crawler" = true ∧
    ((Registry.New Nat "probes").Register "crawler"
        (fun _ => (7, none))).Create "crawler" ⟨[]⟩ =
      (fun (_ : Config) => ((7 : Nat), (none : Option GoError))) ⟨[]⟩ ∧
    "crawler" ∈ ((Registry.New Nat "probes").Register "crawler"
        (fun _ => (7, none))).List ∧
    List.Sorted (· ≤ ·) ((Registry.New Nat "probes").Register "crawler"
        (fun _ => (7, none))).List ∧
    (∀ m, m ∈ ((Registry.New Nat "probes").Register "crawler"
        (fun _ => (7, none))).List ↔
      ((Registry.New Nat "probes").Register "crawler"
        (fun _ => (7, none))).Has m = true) ∧
    (((Registry.New Nat "probes").Register "crawler"
        (fun _ => (7, none))).Register "crawler"
          (fun _ => (9, none))).Create "crawler" ⟨[]⟩ =
      (fun (_ : Config) => ((9 : Nat), (none : Option GoError))) ⟨[]⟩ :=
  registry_roundtrip (Registry.New Nat "probes") "crawler"
    (fun _ => (7, none)) ⟨[]⟩ (fun _ => (9, none)) ⟨[]⟩

end Vespasian
